import Mathlib

/-!
Verification of the extraction and normalization core of the Court Data
Fetcher repository.  The Python sources `utils_module.py` and `scraper.py`
are shallowly embedded below: every function is translated to a computable
Lean definition operating on `String` or `List Char` (Python `None` becomes
`Option.none`, exceptions become `Except`, HTML documents become explicit
table/row/cell and link structures).  Python-specific behaviours that the
code relies on — `re.split` treating `.` as a wildcard, negative slice
indices, `os.path.splitext`'s leading-dot rule — are modelled explicitly.
Definitions suffixed `Spec` are written from the specification's wording
and are compared with the code models by theorems.
-/

namespace CourtFetcher

/-! ### Character and list-of-character helpers

`String.trim`, `String.toLower` and friends from core Lean are implemented
on byte positions and do not reduce in the kernel, so the models below work
on `List Char` throughout.  `trimL` models Python's `str.strip()`, `lowerL`
models `str.lower()` (ASCII, which is all the claims exercise). -/

def lowerL (l : List Char) : List Char := l.map Char.toLower

def trimL (l : List Char) : List Char :=
  ((l.dropWhile Char.isWhitespace).reverse.dropWhile Char.isWhitespace).reverse

/-- `isSubAt sub l` : does `sub` occur as a prefix of `l`? (helper for
Python's substring containment `sub in l`). -/
def isSubAt : List Char → List Char → Bool
  | [], _ => true
  | _ :: _, [] => false
  | a :: as, b :: bs => a == b && isSubAt as bs

/-- `hasSub sub l` : does `sub` occur as a contiguous substring of `l`?
Models Python's `sub in l` on strings. -/
def hasSub (sub : List Char) : List Char → Bool
  | [] => sub.isEmpty
  | b :: bs => isSubAt sub (b :: bs) || hasSub sub bs

/-! ### `validate_case_number` (utils_module.py lines 23-42)

Python returns a `(bool, message)` pair; the three distinct error messages
are modelled as the three kinds of `VKind`.  The regular expression
(one or more of: ASCII letters, digits, slash, dash, anchored at both
ends) applied to the stripped input is modelled as: the
stripped character list is nonempty and every character is ASCII
alphanumeric, `/` or `-` (after `strip` no trailing newline remains, so
`$` matching before a final newline cannot fire). -/

inductive VKind where
  | empty
  | format
  | length
deriving DecidableEq

deriving instance DecidableEq for Except

def okCaseChar (c : Char) : Bool := c.isAlphanum || c == '/' || c == '-'

def validate_case_number (s : String) : Except VKind String :=
  if s = "" then .error .empty
  else
    let t := trimL s.data
    if t.isEmpty || !(t.all okCaseChar) then .error .format
    else if t.length < 1 || t.length > 20 then .error .length
    else .ok (String.mk t)

/-! ### `sanitize_filename` (utils_module.py lines 77-92)

`os.path.basename` keeps the segment after the last `/`;
`re.sub(r'[<>:"/\\|?*]', '_', ...)` replaces the nine listed characters;
`os.path.splitext` splits at the last dot provided some earlier character
of the name is not a dot; the Python slice `name[:255-len(ext)]` is
modelled with `pySliceStop`, including its negative-index semantics. -/

def invalidFileChar (c : Char) : Bool :=
  c == '<' || c == '>' || c == ':' || c == '"' || c == '/' ||
  c == '\\' || c == '|' || c == '?' || c == '*'

def fileReplChar (c : Char) : Char := if invalidFileChar c then '_' else c

def posixBasename (l : List Char) : List Char :=
  (l.reverse.takeWhile (fun c => c ≠ '/')).reverse

/-- `os.path.splitext` on a separator-free name: split at the last dot iff
some character strictly before it is not a dot; otherwise no extension. -/
def pyExt (l : List Char) : List Char × List Char :=
  match l.reverse.findIdx? (fun c => c == '.') with
  | none => (l, [])
  | some k =>
    let i := l.length - 1 - k
    if (l.take i).any (fun c => c ≠ '.') then (l.take i, l.drop i) else (l, [])

/-- Python's `l[:stop]` for an `Int` stop: a negative stop counts from the
end and clips at zero. -/
def pySliceStop (stop : Int) (l : List Char) : List Char :=
  if stop < 0 then l.take ((l.length : Int) + stop).toNat else l.take stop.toNat

def sanitize_filename (s : String) : String :=
  let repl := (posixBasename s.data).map fileReplChar
  if repl.length > 255 then
    let ne := pyExt repl
    String.mk (pySliceStop (255 - (ne.2.length : Int)) ne.1 ++ ne.2)
  else String.mk repl

/-! ### `format_date` (utils_module.py lines 94-120)

The function strips the input and tries six `strptime` patterns in order;
the first success is re-rendered via `strftime` as ISO year-month-day; if
none parses the original string comes back; a falsy (empty) input returns
`None`.  CPython's `strptime` is modelled per format: a day field is one
or two digits valued 1-31, a month field one or two digits valued 1-12, a
year field exactly four digits, month names match case-insensitively, a
space in the pattern matches a run of whitespace, the whole string must be
consumed, and the parsed triple must form a valid calendar date
(`datetime` raises `ValueError` otherwise, which the code swallows). -/

structure PDate where
  y : Nat
  m : Nat
  d : Nat
deriving DecidableEq

def isLeap (y : Nat) : Bool := (y % 4 == 0 && y % 100 != 0) || y % 400 == 0

def daysInMonth (y m : Nat) : Nat :=
  if m = 2 then (if isLeap y then 29 else 28)
  else if m = 4 || m = 6 || m = 9 || m = 11 then 30
  else 31

/-- `datetime(y, m, d)` succeeds exactly under these conditions. -/
def mkDate? (y m d : Nat) : Option PDate :=
  if 1 ≤ y && y ≤ 9999 && 1 ≤ m && m ≤ 12 && 1 ≤ d && d ≤ daysInMonth y m
  then some ⟨y, m, d⟩ else none

def natOfDigits (l : List Char) : Nat :=
  l.foldl (fun a c => 10 * a + (c.toNat - '0'.toNat)) 0

/-- `%d`: one or two digits, value 1-31. -/
def dayField? (l : List Char) : Option Nat :=
  if (l.length = 1 || l.length = 2) && l.all Char.isDigit then
    let v := natOfDigits l
    if 1 ≤ v && v ≤ 31 then some v else none
  else none

/-- `%m`: one or two digits, value 1-12. -/
def monthField? (l : List Char) : Option Nat :=
  if (l.length = 1 || l.length = 2) && l.all Char.isDigit then
    let v := natOfDigits l
    if 1 ≤ v && v ≤ 12 then some v else none
  else none

/-- `%Y`: exactly four digits. -/
def yearField? (l : List Char) : Option Nat :=
  if l.length = 4 && l.all Char.isDigit then some (natOfDigits l) else none

/-- Split a character list at every occurrence of `sep` (Python
`str.split(sep)` shape: `n` separators give `n+1` pieces). -/
def splitOnC (sep : Char) : List Char → List (List Char)
  | [] => [[]]
  | c :: cs =>
    let r := splitOnC sep cs
    if c = sep then [] :: r
    else
      match r with
      | [] => [[c]]
      | w :: ws => (c :: w) :: ws

/-- Patterns day-sep-month-sep-year (`%d/%m/%Y`, `%d-%m-%Y`, `%d.%m.%Y`). -/
def parseDMY (sep : Char) (l : List Char) : Option PDate :=
  match splitOnC sep l with
  | [a, b, c] => do
    let d ← dayField? a
    let m ← monthField? b
    let y ← yearField? c
    mkDate? y m d
  | _ => none

/-- Pattern `%Y-%m-%d` (ISO). -/
def parseYMD (l : List Char) : Option PDate :=
  match splitOnC '-' l with
  | [a, b, c] => do
    let y ← yearField? a
    let m ← monthField? b
    let d ← dayField? c
    mkDate? y m d
  | _ => none

def monthNamesFull : List (List Char) :=
  ["january".data, "february".data, "march".data, "april".data, "may".data,
   "june".data, "july".data, "august".data, "september".data, "october".data,
   "november".data, "december".data]

def monthNamesAbbr : List (List Char) :=
  ["jan".data, "feb".data, "mar".data, "apr".data, "may".data, "jun".data,
   "jul".data, "aug".data, "sep".data, "oct".data, "nov".data, "dec".data]

def monthByName? (names : List (List Char)) (w : List Char) : Option Nat :=
  (names.findIdx? (fun n => n = lowerL w)).map (· + 1)

/-- Split into maximal whitespace-free words. -/
def wordsAux : List Char → List Char → List (List Char)
  | [], acc => if acc.isEmpty then [] else [acc.reverse]
  | c :: cs, acc =>
    if c.isWhitespace then
      if acc.isEmpty then wordsAux cs [] else acc.reverse :: wordsAux cs []
    else wordsAux cs (c :: acc)

def wordsOf (l : List Char) : List (List Char) := wordsAux l []

/-- Patterns `%d %B %Y` and `%d %b %Y`: day, month name, four-digit year,
separated by whitespace runs, with no leading or trailing whitespace. -/
def parseDNameY (names : List (List Char)) (l : List Char) : Option PDate :=
  let edgesOk :=
    (match l.head? with | some c => !c.isWhitespace | none => false) &&
    (match l.getLast? with | some c => !c.isWhitespace | none => false)
  if edgesOk then
    match wordsOf l with
    | [a, b, c] => do
      let d ← dayField? a
      let m ← monthByName? names b
      let y ← yearField? c
      mkDate? y m d
    | _ => none
  else none

def fmtParsers : List (List Char → Option PDate) :=
  [parseDMY '/', parseDMY '-', parseDMY '.', parseYMD,
   parseDNameY monthNamesFull, parseDNameY monthNamesAbbr]

def digitChar (n : Nat) : Char := Char.ofNat ('0'.toNat + n % 10)

def pad2 (n : Nat) : List Char := [digitChar (n / 10), digitChar n]

def pad4 (n : Nat) : List Char :=
  [digitChar (n / 1000), digitChar (n / 100), digitChar (n / 10), digitChar n]

/-- `strftime` with the ISO year-month-day format. -/
def renderISO (d : PDate) : String :=
  String.mk (pad4 d.y ++ '-' :: pad2 d.m ++ '-' :: pad2 d.d)

def format_date (s : String) : Option String :=
  if s = "" then none
  else
    match fmtParsers.findSome? (fun p => p (trimL s.data)) with
    | some d => some (renderISO d)
    | none => some s

/-! ### `clean_text` (utils_module.py lines 135-148)

Pipeline: collapse every whitespace run to a single space, delete every
character outside the class kept by the regular expression (word
characters — ASCII alphanumeric and underscore in this model — whitespace,
and the eight listed punctuation marks), then strip.  `collapseAux` is a
one-pass translation of the substitution of a single space for each
maximal whitespace run, carrying a flag for "previous character was
whitespace". -/

def collapseAux : Bool → List Char → List Char
  | _, [] => []
  | pw, c :: cs =>
    if c.isWhitespace then
      if pw then collapseAux true cs else ' ' :: collapseAux true cs
    else c :: collapseAux false cs

def collapseWS (l : List Char) : List Char := collapseAux false l

def keepChar (c : Char) : Bool :=
  c.isAlphanum || c == '_' || c.isWhitespace ||
  c == '.' || c == ',' || c == ';' || c == ':' ||
  c == '(' || c == ')' || c == '-' || c == '/'

def cleanChars (l : List Char) : List Char :=
  trimL ((collapseWS l).filter keepChar)

def clean_text (s : String) : String :=
  if s = "" then "" else String.mk (cleanChars s.data)

/-! ### `parse_case_parties` (utils_module.py lines 185-202)

The loop checks, in order, whether each separator occurs *literally* in
the lower-cased text, and then splits with `re.split(sep, text,
maxsplit=1, flags=IGNORECASE)`.  Because the separator is used as a
regular expression, the dot in the final separator matches any character
except a newline (the `DOTALL` flag is not set).  `PTok` is a pattern
token: a literal (case-insensitive) character or the dot wildcard. -/

inductive PTok where
  | lit (c : Char)
  | anyc
deriving DecidableEq

def ptokMatch : PTok → Char → Bool
  | .lit a, c => c.toLower == a
  | .anyc, c => c != '\n'

def pmatchAt : List PTok → List Char → Bool
  | [], _ => true
  | _ :: _, [] => false
  | p :: ps, c :: cs => ptokMatch p c && pmatchAt ps cs

/-- Index of the leftmost match of the pattern (regex search). -/
def pfind (pat : List PTok) : List Char → Option Nat
  | [] => if pmatchAt pat [] then some 0 else none
  | c :: cs => if pmatchAt pat (c :: cs) then some 0 else (pfind pat cs).map (· + 1)

def litToks (s : String) : List PTok := s.data.map PTok.lit

/-- The four separators: the literal text used for the containment check,
and the regex pattern used for the split (`v.` ends with the wildcard). -/
def sepsList : List (List Char × List PTok) :=
  [("vs".data, litToks "vs"),
   ("v/s".data, litToks "v/s"),
   ("versus".data, litToks "versus"),
   ("v.".data, [PTok.lit 'v', PTok.anyc])]

def tryseps : List (List Char × List PTok) → List Char → Option (List Char × List Char)
  | [], _ => none
  | sp :: rest, l =>
    if hasSub sp.1 (lowerL l) then
      match pfind sp.2 l with
      | some i => some (l.take i, l.drop (i + sp.2.length))
      | none => tryseps rest l
    else tryseps rest l

def parse_case_parties (s : String) : Option String × Option String :=
  if s = "" then (none, none)
  else
    match tryseps sepsList s.data with
    | some ab => (some (String.mk (trimL ab.1)), some (String.mk (trimL ab.2)))
    | none => (some (String.mk (trimL s.data)), none)

/-! ### `_parse_case_details` (scraper.py lines 148-197)

A document is the part of the parsed HTML the function consumes: the
tables as lists of rows (each row the list of its `td`/`th` cell texts,
stripped) and the anchors that carry an `href` (visible text and target).
The Python function mutates a dict from a fixed all-empty initial state;
rows with at least two cells run through an `elif` chain that assigns the
second cell's text to at most one field; afterwards every link whose text
contains one of three words and whose target contains "pdf" or "download"
is appended to `judgments`. -/

structure ALink where
  text : String
  href : String
deriving DecidableEq

structure CaseDoc where
  tables : List (List (List String))
  links : List ALink

structure JLink where
  text : String
  url : String
deriving DecidableEq

structure CaseRec where
  petitioner : String
  respondent : String
  filing_date : String
  next_hearing : String
  case_status : String
  judgments : List JLink
deriving DecidableEq

inductive CField where
  | petitioner
  | respondent
  | filingDate
  | nextHearing
  | caseStatus
deriving DecidableEq

def getF : CField → CaseRec → String
  | .petitioner, p => p.petitioner
  | .respondent, p => p.respondent
  | .filingDate, p => p.filing_date
  | .nextHearing, p => p.next_hearing
  | .caseStatus, p => p.case_status

def setF : CField → String → CaseRec → CaseRec
  | .petitioner, v, p => { p with petitioner := v }
  | .respondent, v, p => { p with respondent := v }
  | .filingDate, v, p => { p with filing_date := v }
  | .nextHearing, v, p => { p with next_hearing := v }
  | .caseStatus, v, p => { p with case_status := v }

def rowLabel (r : List String) : List Char := lowerL (r.getD 0 "").data

def rowValue (r : List String) : String := r.getD 1 ""

/-- The `elif` chain of the Python row loop, as a classifier: which field
does the (lower-cased) label of this row populate, if any?  First match
wins. -/
def classifyLabel (lab : List Char) : Option CField :=
  if hasSub "petitioner".data lab || hasSub "plaintiff".data lab then some .petitioner
  else if hasSub "respondent".data lab || hasSub "defendant".data lab then some .respondent
  else if hasSub "filing".data lab && hasSub "date".data lab then some .filingDate
  else if hasSub "next".data lab && (hasSub "hearing".data lab || hasSub "date".data lab) then some .nextHearing
  else if hasSub "status".data lab then some .caseStatus
  else none

/-- A row populates a field only when it has at least two cells. -/
def rowField? (r : List String) : Option CField :=
  if 2 ≤ r.length then classifyLabel (rowLabel r) else none

def updateRow (p : CaseRec) (r : List String) : CaseRec :=
  match rowField? r with
  | some f => setF f (rowValue r) p
  | none => p

def judgWords : List String := ["judgment", "order", "download"]

def isJudgLink (l : ALink) : Bool :=
  (judgWords.any fun w => hasSub w.data (lowerL l.text.data)) &&
  (hasSub "pdf".data (lowerL l.href.data) || hasSub "download".data (lowerL l.href.data))

def judgLinksOf (links : List ALink) : List JLink :=
  links.foldl (fun acc l => if isJudgLink l then acc ++ [⟨l.text, l.href⟩] else acc) []

def parse_case_details (doc : CaseDoc) : CaseRec :=
  let p := doc.tables.foldl (fun p t => t.foldl updateRow p) ⟨"", "", "", "", "", []⟩
  { p with judgments := judgLinksOf doc.links }

/-! ### `_parse_causelist` (scraper.py lines 271-288)

Only tables carrying the `causelist-table` class are scanned (the
`marked` flag); the first row of each is skipped; every later row with at
least four cells contributes one entry, appended in document order. -/

structure CLTable where
  marked : Bool
  rows : List (List String)

structure CLEntry where
  case_number : String
  parties : String
  court_room : String
  time : String
deriving DecidableEq

def clRowEntry (r : List String) : CLEntry :=
  ⟨r.getD 0 "", r.getD 1 "", r.getD 2 "", r.getD 3 ""⟩

def parse_causelist (tables : List CLTable) : List CLEntry :=
  (tables.filter (·.marked)).foldl
    (fun cases t =>
      (t.rows.drop 1).foldl
        (fun cs r => if 4 ≤ r.length then cs ++ [clRowEntry r] else cs) cases)
    []

/-- Lexical (code-point) comparison of strings, Python's `<=` on `str`. -/
def lexLeC : List Char → List Char → Bool
  | [], _ => true
  | _ :: _, [] => false
  | a :: as, b :: bs => if a = b then lexLeC as bs else decide (a < b)

/-- Is the entry list sorted ascending by the literal time string? -/
def timesSortedLex : List CLEntry → Bool
  | [] => true
  | [_] => true
  | a :: b :: r => lexLeC a.time.data b.time.data && timesSortedLex (b :: r)

/-! ## Theorems -/

/-! ### Claim C6 — `validate_case_number` -/

/-- C6 counterexample: on the whitespace-only input `" "` the code fails
with the *format* kind — the anchored regular expression requires at least
one character and the stripped value is empty — whereas the claim's
taxonomy assigns this case to the *length* kind (trimmed length 0 is
outside [1,20] and no character of the trimmed value is outside the
allowed set). -/
theorem C6_claim_cex :
    validate_case_number " " = .error .format ∧
    validate_case_number " " ≠ .error .length := by decide

/-- C6 (amended): `validate_case_number` fails with kind `empty` exactly on
the empty input; with kind `format` exactly when the input is nonempty and
the trimmed value is empty (whitespace-only input) or contains a character
outside letters, digits, slash, dash; with kind `length` exactly when the
trimmed value is a nonempty all-allowed string longer than 20; and
succeeds with the trimmed value exactly when the trimmed value is a
nonempty all-allowed string of length at most 20. -/
theorem C6_validate_case_number_cases (s : String) :
    (validate_case_number s = .error .empty ↔ s = "")
    ∧ (validate_case_number s = .error .format ↔
        s ≠ "" ∧ (trimL s.data = [] ∨ ¬ (trimL s.data).all okCaseChar = true))
    ∧ (validate_case_number s = .error .length ↔
        s ≠ "" ∧ trimL s.data ≠ [] ∧ (trimL s.data).all okCaseChar = true ∧
        20 < (trimL s.data).length)
    ∧ (validate_case_number s = .ok (String.mk (trimL s.data)) ↔
        s ≠ "" ∧ trimL s.data ≠ [] ∧ (trimL s.data).all okCaseChar = true ∧
        (trimL s.data).length ≤ 20) := by
  unfold validate_case_number
  by_cases hs : s = ""
  · simp [hs]
  · by_cases h1 : trimL s.data = []
    · simp [hs, h1]
    · by_cases h2 : (trimL s.data).all okCaseChar = true
      · by_cases h3 : (trimL s.data).length ≤ 20
        · have h4 : ¬ (trimL s.data).length > 20 := by omega
          have h5 : ¬ (trimL s.data).length < 1 := by
            have := List.length_pos.mpr h1; omega
          simp [hs, h1, h2, h3, h4, h5, List.isEmpty_iff]
        · have h4 : (trimL s.data).length > 20 := by omega
          simp [hs, h1, h2, h3, h4, List.isEmpty_iff]
      · simp [hs, h1, h2, List.isEmpty_iff]

/-- C6 witness: a concrete valid case number, accepted with its trimmed
value. -/
theorem C6_witness :
    validate_case_number "AB/12-X" = .ok (String.mk (trimL "AB/12-X".data)) :=
  ((C6_validate_case_number_cases "AB/12-X").2.2.2).mpr (by decide)

/-! ### Claim C5 — `sanitize_filename` -/

lemma invalidFileChar_fileReplChar (c : Char) :
    invalidFileChar (fileReplChar c) = false := by
  by_cases h : invalidFileChar c = true
  · simp [fileReplChar, h]
    decide
  · simp [fileReplChar, h]

lemma pyExt_append (l : List Char) : (pyExt l).1 ++ (pyExt l).2 = l := by
  unfold pyExt
  cases h : l.reverse.findIdx? (fun c => c == '.') with
  | none => simp
  | some k =>
    simp only []
    by_cases h2 : ((l.take (l.length - 1 - k)).any fun c => decide (c ≠ '.')) = true
    · rw [if_pos h2]
      exact List.take_append_drop _ _
    · rw [if_neg h2]
      simp

/-- C5 counterexample input: the replaced basename is `a.` followed by 300
`x`s, whose extension alone is 301 characters long. -/
def longExtName : String := String.mk ('a' :: '.' :: List.replicate 300 'x')

set_option maxRecDepth 4000 in
/-- C5 counterexample: the claim says the returned filename's total length
is at most 255, but when the extension itself exceeds 255 characters the
Python slice `name[:255-len(ext)]` gets a negative bound and the whole
extension is still appended: this 302-character input comes back with 301
characters. -/
theorem C5_claim_cex : 255 < (sanitize_filename longExtName).length := by decide

/-- C5 (amended): `sanitize_filename` strips path components, replaces
each of the nine forbidden characters with an underscore (the result never
contains one of them), and truncates the base keeping the extension, which
bounds the total length by 255 *provided the extension itself is at most
255 characters long* (the negative-slice case of the counterexample is the
only exception). -/
theorem C5_sanitize_filename_bound (s : String) :
    ((pyExt ((posixBasename s.data).map fileReplChar)).2.length ≤ 255 →
      (sanitize_filename s).length ≤ 255)
    ∧ (∀ c ∈ (sanitize_filename s).data, invalidFileChar c = false) := by
  have hmem : ∀ c ∈ (posixBasename s.data).map fileReplChar,
      invalidFileChar c = false := by
    intro c hc
    rcases List.mem_map.mp hc with ⟨d, _, rfl⟩
    exact invalidFileChar_fileReplChar d
  unfold sanitize_filename
  by_cases h : ((posixBasename s.data).map fileReplChar).length > 255
  · simp only [h, if_true]
    constructor
    · intro hext
      have hstop : (0 : Int) ≤ 255 - ((pyExt ((posixBasename s.data).map fileReplChar)).2.length : Int) := by
        omega
      simp only [String.length, pySliceStop]
      rw [if_neg (by omega)]
      simp only [List.length_append, List.length_take]
      omega
    · intro c hc
      simp only [pySliceStop] at hc
      have hrepl : c ∈ (posixBasename s.data).map fileReplChar := by
        rw [← pyExt_append ((posixBasename s.data).map fileReplChar)]
        rcases List.mem_append.mp hc with h1 | h1
        · apply List.mem_append_left
          split at h1
          · exact List.take_subset _ _ h1
          · exact List.take_subset _ _ h1
        · exact List.mem_append_right _ h1
      exact hmem c hrepl
  · simp only [h, if_false]
    exact ⟨fun _ => by simp only [String.length]; omega, hmem⟩

/-- C5 witness: a concrete name with a path component and forbidden
characters stays within the bound. -/
theorem C5_witness : (sanitize_filename "dir/a<b>.txt").length ≤ 255 :=
  (C5_sanitize_filename_bound "dir/a<b>.txt").1 (by decide)

/-! ### Claim C3 — `format_date` -/

lemma findSome?_append_of {α β : Type} (f : α → Option β) :
    ∀ (pre : List α) (x : α) (post : List α) (b : β),
      (∀ a ∈ pre, f a = none) → f x = some b →
      (pre ++ x :: post).findSome? f = some b := by
  intro pre
  induction pre with
  | nil =>
    intro x post b _ hx
    simp [List.findSome?, hx]
  | cons a as ih =>
    intro x post b hpre hx
    have ha : f a = none := hpre a (by simp)
    simp only [List.cons_append, List.findSome?, ha]
    exact ih x post b (fun q hq => hpre q (by simp [hq])) hx

lemma findSome?_eq_none_of {α β : Type} (f : α → Option β) :
    ∀ (l : List α), (∀ a ∈ l, f a = none) → l.findSome? f = none := by
  intro l
  induction l with
  | nil => intro _; rfl
  | cons a as ih =>
    intro h
    have ha : f a = none := h a (by simp)
    simp only [List.findSome?, ha]
    exact ih (fun q hq => h q (by simp [hq]))

/-- C3 counterexample: the claim says that when no pattern parses, the
original input comes back unchanged for *every* input string; but on the
empty string the code returns the absent value (`None`), not the string
itself. -/
theorem C3_claim_cex : format_date "" ≠ some "" := by decide

/-- C3 (amended): `format_date` returns the absent value on the empty
input; on a nonempty input it tries the six patterns in their fixed order
against the stripped input — the first parser that succeeds (all earlier
ones failing) determines the result, re-rendered as zero-padded ISO
year-month-day — and when every pattern fails the original input comes
back unchanged.  The two spec examples evaluate as stated. -/
theorem C3_format_date_amended :
    (∀ (s : String) (pre : List (List Char → Option PDate))
        (p : List Char → Option PDate) (post : List (List Char → Option PDate))
        (d : PDate),
        s ≠ "" → fmtParsers = pre ++ p :: post →
        (∀ q ∈ pre, q (trimL s.data) = none) → p (trimL s.data) = some d →
        format_date s = some (renderISO d))
    ∧ (∀ s : String, s ≠ "" → (∀ q ∈ fmtParsers, q (trimL s.data) = none) →
        format_date s = some s)
    ∧ format_date "15/03/2024" = some "2024-03-15"
    ∧ format_date "garbage" = some "garbage"
    ∧ format_date "" = none := by
  refine ⟨?_, ?_, by decide, by decide, rfl⟩
  · intro s pre p post d hs hdec hpre hp
    unfold format_date
    rw [if_neg hs, hdec,
      findSome?_append_of (fun q => q (trimL s.data)) pre p post d hpre hp]
  · intro s hs hall
    unfold format_date
    rw [if_neg hs, findSome?_eq_none_of (fun q => q (trimL s.data)) fmtParsers hall]

/-- C3 witness: the first pattern (day/month/year with slashes) fires on
the spec's example and is rendered as ISO. -/
theorem C3_witness : format_date "15/03/2024" = some (renderISO ⟨2024, 3, 15⟩) :=
  C3_format_date_amended.1 "15/03/2024" [] (parseDMY '/')
    [parseDMY '-', parseDMY '.', parseYMD,
     parseDNameY monthNamesFull, parseDNameY monthNamesAbbr]
    ⟨2024, 3, 15⟩ (by decide) rfl (by simp) (by decide)

/-! ### Claim C4 — `parse_case_parties` -/

lemma pfind_eq_some_of (pat : List PTok) :
    ∀ (l : List Char) (i : Nat),
      pmatchAt pat (l.drop i) = true →
      (∀ j, j < i → pmatchAt pat (l.drop j) = false) →
      pfind pat l = some i := by
  intro l
  induction l with
  | nil =>
    intro i h1 h2
    cases i with
    | zero =>
      simp only [List.drop_nil] at h1
      simp [pfind, h1]
    | succ n =>
      have h0 := h2 0 (Nat.succ_pos n)
      simp only [List.drop_nil] at h0 h1
      rw [h1] at h0
      exact absurd h0 (by simp)
  | cons c cs ih =>
    intro i h1 h2
    cases i with
    | zero =>
      simp only [List.drop_zero] at h1
      simp [pfind, h1]
    | succ n =>
      have h0 := h2 0 (Nat.succ_pos n)
      simp only [List.drop_zero] at h0
      simp only [pfind, h0, Bool.false_eq_true, if_false]
      have hrec := ih n (by simpa using h1)
        (fun j hj => by simpa using h2 (j + 1) (Nat.succ_lt_succ hj))
      rw [hrec]
      rfl

lemma tryseps_eq_of (l : List Char) :
    ∀ (pre : List (List Char × List PTok)) (L : List (List Char × List PTok))
      (sp : List Char × List PTok) (post : List (List Char × List PTok)) (i : Nat),
      L = pre ++ sp :: post →
      (∀ q ∈ pre, hasSub q.1 (lowerL l) = false) →
      hasSub sp.1 (lowerL l) = true →
      pfind sp.2 l = some i →
      tryseps L l = some (l.take i, l.drop (i + sp.2.length)) := by
  intro pre
  induction pre with
  | nil =>
    intro L sp post i hL _ hc hf
    subst hL
    simp only [List.nil_append, tryseps, hc, if_true, hf]
  | cons q qs ih =>
    intro L sp post i hL hpre hc hf
    subst hL
    have hq : hasSub q.1 (lowerL l) = false := hpre q (by simp)
    simp only [List.cons_append, tryseps, hq, Bool.false_eq_true, if_false]
    exact ih _ sp post i rfl (fun r hr => hpre r (by simp [hr])) hc hf

lemma tryseps_none_of (l : List Char) :
    ∀ (L : List (List Char × List PTok)),
      (∀ q ∈ L, hasSub q.1 (lowerL l) = false) → tryseps L l = none := by
  intro L
  induction L with
  | nil => intro _; rfl
  | cons q qs ih =>
    intro h
    have hq : hasSub q.1 (lowerL l) = false := h q (by simp)
    simp only [tryseps, hq, Bool.false_eq_true, if_false]
    exact ih (fun r hr => h r (by simp [hr]))

/-- C4 counterexample: the claim says the split happens at the first
occurrence of the separator itself; but the code hands the separator to a
regular-expression split, where the dot of `v.` matches any character, so
`"Avi v. Bob"` — which contains the literal `v.` — is split at the `vi`
inside `"Avi"`, not at `v.`. -/
theorem C4_claim_cex :
    parse_case_parties "Avi v. Bob" = (some "A", some "v. Bob") ∧
    parse_case_parties "Avi v. Bob" ≠ (some "Avi", some "Bob") := by decide

/-- C4 (amended): on the empty input `parse_case_parties` returns two
absent values; otherwise, for the first separator (in the priority order
`vs`, `v/s`, `versus`, `v.`) whose *literal* text occurs case-insensitively
in the input, the text is split at the leftmost position where the
separator matches *as a pattern in which a dot matches any character other
than a newline* — for the first three separators this is the first literal
occurrence, while for `v.` the split can land on an earlier `v` followed by
any non-newline character — returning the trimmed left and right parts;
when no separator occurs the whole trimmed text is returned with an absent
partner. -/
theorem C4_parse_case_parties_amended :
    (∀ (s : String) (pre : List (List Char × List PTok))
        (sp : List Char × List PTok) (post : List (List Char × List PTok))
        (i : Nat),
        s ≠ "" → sepsList = pre ++ sp :: post →
        (∀ q ∈ pre, hasSub q.1 (lowerL s.data) = false) →
        hasSub sp.1 (lowerL s.data) = true →
        pmatchAt sp.2 (s.data.drop i) = true →
        (∀ j, j < i → pmatchAt sp.2 (s.data.drop j) = false) →
        parse_case_parties s =
          (some (String.mk (trimL (s.data.take i))),
           some (String.mk (trimL (s.data.drop (i + sp.2.length))))))
    ∧ (∀ s : String, s ≠ "" →
        (∀ q ∈ sepsList, hasSub q.1 (lowerL s.data) = false) →
        parse_case_parties s = (some (String.mk (trimL s.data)), none))
    ∧ parse_case_parties "John Doe vs Jane Smith" = (some "John Doe", some "Jane Smith")
    ∧ parse_case_parties "Solo Party" = (some "Solo Party", none)
    ∧ parse_case_parties "" = (none, none)
    ∧ parse_case_parties "Av\nv. B" = (some "Av", some "B") := by
  refine ⟨?_, ?_, by decide, by decide, rfl, by decide⟩
  · intro s pre sp post i hs hdec hpre hc hm hmin
    unfold parse_case_parties
    rw [if_neg hs,
      tryseps_eq_of s.data pre sepsList sp post i hdec hpre hc
        (pfind_eq_some_of sp.2 s.data i hm hmin)]
  · intro s hs hall
    unfold parse_case_parties
    rw [if_neg hs, tryseps_none_of s.data sepsList hall]

/-- C4 witness: the spec's own example, split at position 9 by the first
separator `vs`. -/
theorem C4_witness :
    parse_case_parties "John Doe vs Jane Smith" =
      (some (String.mk (trimL ("John Doe vs Jane Smith".data.take 9))),
       some (String.mk (trimL ("John Doe vs Jane Smith".data.drop
          (9 + (litToks "vs").length))))) :=
  C4_parse_case_parties_amended.1 "John Doe vs Jane Smith" []
    ("vs".data, litToks "vs")
    [("v/s".data, litToks "v/s"), ("versus".data, litToks "versus"),
     ("v.".data, [PTok.lit 'v', PTok.anyc])] 9
    (by decide) rfl (by simp) (by decide) (by decide) (by decide)

/-! ### Claim C1 — `_parse_causelist` -/

/-- One row's contribution, as an optional entry (rows with fewer than
four cells contribute nothing). -/
def clRowOpt (r : List String) : Option CLEntry :=
  if 4 ≤ r.length then some (clRowEntry r) else none

/-- The cause-list result described in document order: recognized tables
in order, each contributing the entries of its post-header rows in order.
Written from the spec's wording (minus the sorting step the code does not
perform). -/
def causelistSpec (tables : List CLTable) : List CLEntry :=
  (tables.filter (·.marked)).flatMap fun t => (t.rows.drop 1).filterMap clRowOpt

lemma causelist_inner_foldl (rows : List (List String)) :
    ∀ init : List CLEntry,
      rows.foldl (fun cs r => if 4 ≤ r.length then cs ++ [clRowEntry r] else cs) init =
        init ++ rows.filterMap clRowOpt := by
  induction rows with
  | nil => intro init; simp
  | cons r rs ih =>
    intro init
    by_cases h : 4 ≤ r.length
    · simp [h, clRowOpt, List.filterMap_cons, ih]
    · simp [h, clRowOpt, List.filterMap_cons, ih]

lemma causelist_outer_foldl (ts : List CLTable) :
    ∀ init : List CLEntry,
      ts.foldl
        (fun cases t =>
          (t.rows.drop 1).foldl
            (fun cs r => if 4 ≤ r.length then cs ++ [clRowEntry r] else cs) cases)
        init =
        init ++ ts.flatMap fun t => (t.rows.drop 1).filterMap clRowOpt := by
  induction ts with
  | nil => intro init; simp
  | cons t ts ih =>
    intro init
    simp only [List.foldl_cons, List.flatMap_cons, causelist_inner_foldl] at ih ⊢
    rw [ih, List.append_assoc]

/-- The concrete five-row document of the spec's example (one recognized
cause-list table, a header row, then five data rows whose times appear in
this document order). -/
def exCLDoc : List CLTable :=
  [⟨true,
    [["Case", "Parties", "Court", "Time"],
     ["C1", "A vs B", "R1", "11:00 AM"],
     ["C2", "C vs D", "R2", "10:00 AM"],
     ["C3", "E vs F", "R3", "02:00 PM"],
     ["C4", "G vs H", "R4", "10:30 AM"],
     ["C5", "I vs J", "R5", "03:00 PM"]]⟩]

/-- C1 counterexample: on the spec's own five-row example the extractor
returns the times in document order, which is *not* sorted ascending under
lexical string comparison — the code contains no sorting step at all. -/
theorem C1_claim_cex :
    (parse_causelist exCLDoc).map (·.time) =
      ["11:00 AM", "10:00 AM", "02:00 PM", "10:30 AM", "03:00 PM"] ∧
    timesSortedLex (parse_causelist exCLDoc) = false := by decide

/-- C1 (amended): the Cause-List Extractor returns the entries built from
all recognized cause-list tables (skipping each table's header row, taking
cells 0-3 of every remaining row with at least 4 cells) in *document
order* — tables in order, rows within each table in order, with no sort by
the time string; in particular the five-row example comes back exactly in
its original order. -/
theorem C1_causelist_document_order :
    (∀ tables : List CLTable, parse_causelist tables = causelistSpec tables)
    ∧ (parse_causelist exCLDoc).map (·.time) =
        ["11:00 AM", "10:00 AM", "02:00 PM", "10:30 AM", "03:00 PM"] := by
  refine ⟨?_, by decide⟩
  intro tables
  unfold parse_causelist causelistSpec
  rw [causelist_outer_foldl]
  rfl

/-! ### Claims C2, C9, C10 — `_parse_case_details` -/

/-- All rows of the document, tables flattened in document order. -/
def allRows (doc : CaseDoc) : List (List String) := doc.tables.flatten

/-- The value of one record field as the spec describes it: the value
cell of the *last* row (among rows with at least two cells) whose label
the priority table sends to this field, or the empty default when no row
matches. -/
def fieldSpec (doc : CaseDoc) (f : CField) : String :=
  (((allRows doc).filter fun r => decide (rowField? r = some f)).getLast?).elim
    "" rowValue

lemma getF_setF (f g : CField) (v : String) (p : CaseRec) :
    getF f (setF g v p) = if f = g then v else getF f p := by
  cases f <;> cases g <;> simp [getF, setF]

lemma getF_updateRow (f : CField) (p : CaseRec) (r : List String) :
    getF f (updateRow p r) =
      if rowField? r = some f then rowValue r else getF f p := by
  unfold updateRow
  cases h : rowField? r with
  | none => simp [h]
  | some g =>
    rw [getF_setF]
    by_cases hfg : f = g
    · subst hfg; simp [h]
    · have : ¬ (some g = some f) := by
        intro e
        exact hfg (Option.some.inj e).symm
      simp [h, hfg, this]

lemma foldl_updateRow (f : CField) (rows : List (List String)) :
    ∀ p : CaseRec,
      getF f (rows.foldl updateRow p) =
        ((rows.filter fun r => decide (rowField? r = some f)).getLast?).elim
          (getF f p) rowValue := by
  induction rows with
  | nil => intro p; simp
  | cons r rs ih =>
    intro p
    simp only [List.foldl_cons, ih]
    by_cases h : rowField? r = some f
    · simp only [List.filter_cons, decide_eq_true h, if_true, List.getLast?_cons]
      cases hl : (rs.filter fun r => decide (rowField? r = some f)).getLast? with
      | none => simp [hl, getF_updateRow, h]
      | some x => simp [hl]
    · simp only [List.filter_cons, decide_eq_false h, Bool.false_eq_true, if_false]
      rw [getF_updateRow, if_neg h]

lemma foldl_tables (ts : List (List (List String))) :
    ∀ p : CaseRec,
      ts.foldl (fun p t => t.foldl updateRow p) p = ts.flatten.foldl updateRow p := by
  induction ts with
  | nil => intro p; rfl
  | cons t ts ih => intro p; simp [List.flatten_cons, List.foldl_append, ih]

lemma getF_set_judgments (f : CField) (p : CaseRec) (j : List JLink) :
    getF f { p with judgments := j } = getF f p := by
  cases f <;> rfl

/-- Characterization of every string field of the parsed record. -/
lemma parse_fields (doc : CaseDoc) (f : CField) :
    getF f (parse_case_details doc) = fieldSpec doc f := by
  have hbase : getF f (⟨"", "", "", "", "", []⟩ : CaseRec) = "" := by
    cases f <;> rfl
  unfold parse_case_details fieldSpec allRows
  rw [getF_set_judgments, foldl_tables, foldl_updateRow, hbase]

/-- The spec's example document for the Record Extractor. -/
def exRecDoc : CaseDoc :=
  ⟨[[["Petitioner Name", "John Doe"],
     ["Respondent Name", "Jane Smith"],
     ["Case Status", "Pending"]]], []⟩

/-- C2: every string field of the record equals the value of the last row
(among rows with at least 2 cells) that the fixed priority table maps to
that field, with the empty default when no row matches (rows with fewer
than 2 cells are skipped, one field per row, last match wins); and the
spec's three-row example yields exactly the stated record, its remaining
fields left at the absent default and `judgments` empty. -/
theorem C2_record_extractor :
    (∀ (doc : CaseDoc) (f : CField),
      getF f (parse_case_details doc) = fieldSpec doc f)
    ∧ parse_case_details exRecDoc =
        ⟨"John Doe", "Jane Smith", "", "", "Pending", []⟩ :=
  ⟨parse_fields, by decide⟩

/-- C9 spec-side predicate: visible text contains one of the three words
(case-insensitively) *and* the target contains "pdf" or "download". -/
def IsJudgmentLink (l : ALink) : Prop :=
  (∃ w ∈ judgWords, hasSub w.data (lowerL l.text.data) = true) ∧
  (hasSub "pdf".data (lowerL l.href.data) = true ∨
   hasSub "download".data (lowerL l.href.data) = true)

instance (l : ALink) : Decidable (IsJudgmentLink l) := by
  unfold IsJudgmentLink
  exact inferInstance

lemma isJudgLink_iff (l : ALink) : isJudgLink l = true ↔ IsJudgmentLink l := by
  simp [isJudgLink, IsJudgmentLink, List.any_eq_true]

lemma isJudgLink_eq_decide (l : ALink) :
    isJudgLink l = decide (IsJudgmentLink l) := by
  by_cases h : IsJudgmentLink l
  · rw [(isJudgLink_iff l).mpr h, decide_eq_true h]
  · have h1 : isJudgLink l ≠ true := fun hh => h ((isJudgLink_iff l).mp hh)
    have h2 : isJudgLink l = false := by
      cases hb : isJudgLink l
      · rfl
      · exact absurd hb h1
    rw [h2, decide_eq_false h]

lemma judgLinks_foldl (links : List ALink) :
    ∀ init : List JLink,
      links.foldl (fun acc l => if isJudgLink l then acc ++ [⟨l.text, l.href⟩] else acc) init =
        init ++ (links.filter isJudgLink).map fun l => (⟨l.text, l.href⟩ : JLink) := by
  induction links with
  | nil => intro init; simp
  | cons l ls ih =>
    intro init
    by_cases h : isJudgLink l = true
    · simp [h, List.filter_cons, ih]
    · rw [Bool.not_eq_true] at h
      simp [h, List.filter_cons, ih]

lemma judgLinksOf_eq (links : List ALink) :
    judgLinksOf links = (links.filter fun l => decide (IsJudgmentLink l)).map
      fun l => (⟨l.text, l.href⟩ : JLink) := by
  unfold judgLinksOf
  rw [judgLinks_foldl]
  rw [List.filter_congr fun x _ => isJudgLink_eq_decide x]
  rfl

lemma parse_judgments (doc : CaseDoc) :
    (parse_case_details doc).judgments = judgLinksOf doc.links := rfl

/-- The spec's two-link example document for the Link Classifier. -/
def exLinkDoc : CaseDoc :=
  ⟨[], [⟨"Download Order", "x.pdf"⟩, ⟨"Home", "index.html"⟩]⟩

/-- C9: a link lands in `judgments` iff its visible text contains one of
"judgment", "order", "download" (case-insensitively) and its target
contains "pdf" or "download"; the classified links are kept in document
order with no deduplication (the result is literally the filtered link
list, mapped to text/url pairs); on the spec's example only the first link
is returned. -/
theorem C9_link_classifier :
    (∀ doc : CaseDoc,
      (parse_case_details doc).judgments =
        (doc.links.filter fun l => decide (IsJudgmentLink l)).map
          fun l => (⟨l.text, l.href⟩ : JLink))
    ∧ (parse_case_details exLinkDoc).judgments = [⟨"Download Order", "x.pdf"⟩] := by
  constructor
  · intro doc
    rw [parse_judgments, judgLinksOf_eq]
  · decide

lemma fieldSpec_default (doc : CaseDoc) (f : CField) :
    (∀ r ∈ allRows doc, rowField? r ≠ some f) → fieldSpec doc f = "" := by
  intro h
  unfold fieldSpec
  have : ((allRows doc).filter fun r => decide (rowField? r = some f)) = [] := by
    rw [List.filter_eq_nil_iff]
    intro a ha
    simp [h a ha]
  rw [this]
  rfl

/-- C10: on every document the record extractor returns a record carrying
all six fields; each of the five string fields defaults to the *empty
string* (not a distinct absent value) whenever no row populates it, and
`judgments` defaults to the empty sequence when no link qualifies.  (The
embedding is a total function, so the "never raises" part holds by
construction.) -/
theorem C10_record_defaults (doc : CaseDoc) :
    ((∀ r ∈ allRows doc, rowField? r ≠ some CField.petitioner) →
      (parse_case_details doc).petitioner = "")
    ∧ ((∀ r ∈ allRows doc, rowField? r ≠ some CField.respondent) →
      (parse_case_details doc).respondent = "")
    ∧ ((∀ r ∈ allRows doc, rowField? r ≠ some CField.filingDate) →
      (parse_case_details doc).filing_date = "")
    ∧ ((∀ r ∈ allRows doc, rowField? r ≠ some CField.nextHearing) →
      (parse_case_details doc).next_hearing = "")
    ∧ ((∀ r ∈ allRows doc, rowField? r ≠ some CField.caseStatus) →
      (parse_case_details doc).case_status = "")
    ∧ ((∀ l ∈ doc.links, isJudgLink l = false) →
      (parse_case_details doc).judgments = []) := by
  refine ⟨?_, ?_, ?_, ?_, ?_, ?_⟩
  · intro h
    have := parse_fields doc .petitioner
    simp only [getF] at this
    rw [this, fieldSpec_default doc _ h]
  · intro h
    have := parse_fields doc .respondent
    simp only [getF] at this
    rw [this, fieldSpec_default doc _ h]
  · intro h
    have := parse_fields doc .filingDate
    simp only [getF] at this
    rw [this, fieldSpec_default doc _ h]
  · intro h
    have := parse_fields doc .nextHearing
    simp only [getF] at this
    rw [this, fieldSpec_default doc _ h]
  · intro h
    have := parse_fields doc .caseStatus
    simp only [getF] at this
    rw [this, fieldSpec_default doc _ h]
  · intro h
    rw [parse_judgments, judgLinksOf_eq]
    have : (doc.links.filter fun l => decide (IsJudgmentLink l)) = [] := by
      rw [List.filter_eq_nil_iff]
      intro a ha
      have := h a ha
      rw [isJudgLink_eq_decide] at this
      simp [this]
    rw [this]
    rfl

/-- C10 witness: a concrete document with one unclassifiable row, one
short row, and one non-judgment link gets the all-defaults record. -/
theorem C10_witness :
    (parse_case_details ⟨[[["Random", "X"], ["OnlyOne"]]],
        [⟨"Home", "index.html"⟩]⟩).petitioner = "" ∧
    (parse_case_details ⟨[[["Random", "X"], ["OnlyOne"]]],
        [⟨"Home", "index.html"⟩]⟩).judgments = [] :=
  ⟨(C10_record_defaults _).1 (by decide),
   (C10_record_defaults _).2.2.2.2.2 (by decide)⟩

/-! ### Claim C7 — `clean_text` against the spec's description -/

lemma bool_eq_decide {b : Bool} {p : Prop} [Decidable p] (h : b = true ↔ p) :
    b = decide p := by
  by_cases hp : p
  · rw [h.mpr hp, decide_eq_true hp]
  · have h1 : b = false := by
      cases hb : b
      · rfl
      · exact absurd (h.mp hb) hp
    rw [h1, decide_eq_false hp]

lemma length_dropWhile_le (p : Char → Bool) (l : List Char) :
    (l.dropWhile p).length ≤ l.length := by
  induction l with
  | nil => simp
  | cons c cs ih =>
    rw [List.dropWhile_cons]
    split
    · exact Nat.le_trans ih (Nat.le_succ _)
    · exact Nat.le_refl _

/-- The spec's wording of the whitespace collapse, implemented differently
from the code model: each whitespace run is consumed in one step.  The
`Nat` argument is structural-recursion fuel; `l.length` is always enough
because each step consumes at least one character. -/
def collapseRunsFuel : Nat → List Char → List Char
  | 0, _ => []
  | _, [] => []
  | n + 1, c :: cs =>
    if c.isWhitespace then
      ' ' :: collapseRunsFuel n (cs.dropWhile Char.isWhitespace)
    else c :: collapseRunsFuel n cs

def collapseRunsSpec (l : List Char) : List Char := collapseRunsFuel l.length l

/-- The character class kept by the amended spec: word characters (ASCII
alphanumeric or underscore), whitespace, or one of the eight punctuation
marks. -/
def keepSpecC (c : Char) : Prop :=
  c.isAlphanum = true ∨ c = '_' ∨ c.isWhitespace = true ∨
  c ∈ ['.', ',', ';', ':', '(', ')', '-', '/']

instance (c : Char) : Decidable (keepSpecC c) := by
  unfold keepSpecC
  exact inferInstance

/-- The character class the claim *states* (no underscore): alphanumeric,
whitespace, or one of the eight punctuation marks. -/
def keepClaimedC (c : Char) : Prop :=
  c.isAlphanum = true ∨ c.isWhitespace = true ∨
  c ∈ ['.', ',', ';', ':', '(', ')', '-', '/']

instance (c : Char) : Decidable (keepClaimedC c) := by
  unfold keepClaimedC
  exact inferInstance

/-- `clean_text` as the claim literally states it (keep set without the
underscore). -/
def cleanTextClaimed (s : String) : String :=
  if s = "" then ""
  else String.mk (trimL ((collapseRunsSpec s.data).filter fun c => decide (keepClaimedC c)))

/-- `clean_text` as amended (keep set with the underscore, i.e. the word
characters of the regular expression). -/
def cleanTextSpec (s : String) : String :=
  if s = "" then ""
  else String.mk (trimL ((collapseRunsSpec s.data).filter fun c => decide (keepSpecC c)))

lemma keepChar_iff (c : Char) : keepChar c = true ↔ keepSpecC c := by
  simp only [keepChar, keepSpecC, Bool.or_eq_true, beq_iff_eq, List.mem_cons,
    List.not_mem_nil, or_false]
  tauto

lemma keepChar_eq_decide (c : Char) : keepChar c = decide (keepSpecC c) :=
  bool_eq_decide (keepChar_iff c)

lemma collapseRunsFuel_irrel (n : Nat) :
    ∀ l : List Char, l.length ≤ n → collapseRunsFuel (n + 1) l = collapseRunsFuel n l := by
  induction n with
  | zero =>
    intro l hl
    have : l = [] := List.length_eq_zero.mp (Nat.le_zero.mp hl)
    subst this
    rfl
  | succ n ih =>
    intro l hl
    cases l with
    | nil => rfl
    | cons c cs =>
      have hcs : cs.length ≤ n := by
        simp only [List.length_cons] at hl
        omega
      by_cases h : c.isWhitespace = true
      · simp only [collapseRunsFuel, h, if_true]
        rw [ih _ (Nat.le_trans (length_dropWhile_le _ cs) hcs)]
      · simp only [collapseRunsFuel, h, Bool.false_eq_true, if_false]
        rw [ih _ hcs]

lemma collapse_fuel_eq (n : Nat) :
    ∀ l : List Char, l.length ≤ n →
      collapseAux false l = collapseRunsFuel n l ∧
      collapseAux true l = collapseRunsFuel n (l.dropWhile Char.isWhitespace) := by
  induction n with
  | zero =>
    intro l hl
    have : l = [] := List.length_eq_zero.mp (Nat.le_zero.mp hl)
    subst this
    exact ⟨rfl, rfl⟩
  | succ n ih =>
    intro l hl
    cases l with
    | nil => exact ⟨rfl, rfl⟩
    | cons c cs =>
      have hcs : cs.length ≤ n := by
        simp only [List.length_cons] at hl
        omega
      by_cases h : c.isWhitespace = true
      · constructor
        · simp only [collapseRunsFuel, h, if_true, collapseAux,
            Bool.false_eq_true, if_false]
          rw [(ih cs hcs).2]
        · rw [List.dropWhile_cons, if_pos h]
          simp only [collapseAux, h, if_true]
          rw [(ih cs hcs).2,
            collapseRunsFuel_irrel n _ (Nat.le_trans (length_dropWhile_le _ cs) hcs)]
      · constructor
        · simp only [collapseRunsFuel, h, Bool.false_eq_true, if_false, collapseAux]
          rw [(ih cs hcs).1]
        · rw [List.dropWhile_cons, if_neg h]
          simp only [collapseRunsFuel, h, Bool.false_eq_true, if_false, collapseAux]
          rw [(ih cs hcs).1]

lemma collapse_eq_spec (l : List Char) :
    collapseAux false l = collapseRunsSpec l :=
  (collapse_fuel_eq l.length l (Nat.le_refl _)).1

/-- C7 counterexample: the claim's keep set omits the underscore, but the
code's regular expression keeps word characters, so `clean_text "a_b"`
returns `"a_b"` while the claim's pipeline would return `"ab"`. -/
theorem C7_claim_cex :
    clean_text "a_b" = "a_b" ∧ cleanTextClaimed "a_b" = "ab" ∧
    clean_text "a_b" ≠ cleanTextClaimed "a_b" := by decide

/-- C7 (amended): `clean_text` maps the empty input to the empty string
and otherwise collapses every whitespace run to a single space, removes
every character that is not a word character (ASCII alphanumeric or
underscore), whitespace, or one of the eight listed punctuation marks, and
trims — proved as equality with an independently written pipeline built
from the amended wording. -/
theorem C7_clean_text_spec :
    (∀ s : String, clean_text s = cleanTextSpec s)
    ∧ clean_text " Hello,   World! " = "Hello, World" := by
  refine ⟨?_, by decide⟩
  intro s
  unfold clean_text cleanTextSpec
  by_cases h : s = ""
  · rw [if_pos h, if_pos h]
  · rw [if_neg h, if_neg h]
    unfold cleanChars collapseWS
    rw [collapse_eq_spec s.data,
      List.filter_congr fun a _ => keepChar_eq_decide a]

/-! ### Claim C8 — idempotence of `clean_text` -/

/-- C8 counterexample: removing the two `@` signs from `"a @@ b"` merges
two whitespace runs into a double space, which a second application then
collapses — `clean_text` is not idempotent. -/
theorem C8_claim_cex :
    clean_text (clean_text "a @@ b") ≠ clean_text "a @@ b" := by decide

lemma mem_collapseAux (l : List Char) :
    ∀ (b : Bool) (c : Char), c ∈ collapseAux b l → c = ' ' ∨ c ∈ l := by
  induction l with
  | nil => intro b c hc; exact absurd hc (List.not_mem_nil c)
  | cons d ds ih =>
    intro b c hc
    by_cases h : d.isWhitespace = true
    · cases b with
      | true =>
        simp only [collapseAux, h, if_true] at hc
        rcases ih true c hc with h1 | h1
        · exact Or.inl h1
        · exact Or.inr (List.mem_cons_of_mem d h1)
      | false =>
        simp only [collapseAux, h, if_true] at hc
        rcases List.mem_cons.mp hc with h1 | h1
        · exact Or.inl h1
        · rcases ih true c h1 with h2 | h2
          · exact Or.inl h2
          · exact Or.inr (List.mem_cons_of_mem d h2)
    · simp only [collapseAux, h, Bool.false_eq_true, if_false] at hc
      rcases List.mem_cons.mp hc with h1 | h1
      · exact Or.inr (h1 ▸ List.mem_cons_self d ds)
      · rcases ih false c h1 with h2 | h2
        · exact Or.inl h2
        · exact Or.inr (List.mem_cons_of_mem d h2)

lemma mem_dropWhile_sub (p : Char → Bool) (l : List Char) :
    ∀ c, c ∈ l.dropWhile p → c ∈ l := by
  induction l with
  | nil => intro c hc; simp at hc
  | cons d ds ih =>
    intro c hc
    rw [List.dropWhile_cons] at hc
    split at hc
    · exact List.mem_cons_of_mem d (ih c hc)
    · exact hc

lemma mem_trimL_sub (l : List Char) : ∀ c, c ∈ trimL l → c ∈ l := by
  intro c hc
  unfold trimL at hc
  rw [List.mem_reverse] at hc
  have h1 := mem_dropWhile_sub Char.isWhitespace _ c hc
  rw [List.mem_reverse] at h1
  exact mem_dropWhile_sub Char.isWhitespace l c h1

/-- Normal form recognizer for outputs of the collapse pass: every
whitespace character is a plain space and no two stand adjacent (with the
flag recording whether the previous character was whitespace). -/
def isCollapsed : Bool → List Char → Bool
  | _, [] => true
  | pw, c :: cs =>
    if c.isWhitespace then (!pw && c == ' ') && isCollapsed true cs
    else isCollapsed false cs

lemma collapseAux_self_of (l : List Char) :
    ∀ b, isCollapsed b l = true → collapseAux b l = l := by
  induction l with
  | nil => intro b _; rfl
  | cons c cs ih =>
    intro b h
    by_cases hws : c.isWhitespace = true
    · simp only [isCollapsed, hws, if_true, Bool.and_eq_true, Bool.not_eq_true',
        beq_iff_eq] at h
      rcases h with ⟨⟨hb, hc⟩, hrest⟩
      subst hb
      simp only [collapseAux, hws, if_true, Bool.false_eq_true, if_false]
      rw [ih true hrest, hc]
    · simp only [isCollapsed, hws, Bool.false_eq_true, if_false] at h
      simp only [collapseAux, hws, Bool.false_eq_true, if_false]
      rw [ih false h]

lemma isCollapsed_collapseAux (l : List Char) :
    ∀ b, isCollapsed b (collapseAux b l) = true := by
  induction l with
  | nil => intro b; rfl
  | cons c cs ih =>
    intro b
    by_cases hws : c.isWhitespace = true
    · cases b with
      | true =>
        simp only [collapseAux, hws, if_true]
        exact ih true
      | false =>
        simp only [collapseAux, hws, if_true, Bool.false_eq_true, if_false]
        have h1 : (' ' : Char).isWhitespace = true := by decide
        simp only [isCollapsed, h1, if_true, Bool.and_eq_true]
        exact ⟨by decide, ih true⟩
    · simp only [collapseAux, hws, Bool.false_eq_true, if_false]
      simp only [isCollapsed, hws, Bool.false_eq_true, if_false]
      exact ih false

lemma isCollapsed_true_imp (l : List Char) :
    isCollapsed true l = true → isCollapsed false l = true := by
  cases l with
  | nil => intro _; rfl
  | cons c cs =>
    intro h
    by_cases hws : c.isWhitespace = true
    · simp [isCollapsed, hws] at h
    · simpa [isCollapsed, hws] using h

lemma isCollapsed_append_left (l₁ : List Char) :
    ∀ (b : Bool) (l₂ : List Char),
      isCollapsed b (l₁ ++ l₂) = true → isCollapsed b l₁ = true := by
  induction l₁ with
  | nil => intro b l₂ _; rfl
  | cons c cs ih =>
    intro b l₂ h
    by_cases hws : c.isWhitespace = true
    · simp only [List.cons_append, isCollapsed, hws, if_true,
        Bool.and_eq_true] at h ⊢
      exact ⟨h.1, ih true l₂ h.2⟩
    · simp only [List.cons_append, isCollapsed, hws, Bool.false_eq_true,
        if_false] at h ⊢
      exact ih false l₂ h

lemma dropWhile_self_of_true (l : List Char) :
    isCollapsed true l = true → l.dropWhile Char.isWhitespace = l := by
  cases l with
  | nil => intro _; rfl
  | cons c cs =>
    intro h
    by_cases hws : c.isWhitespace = true
    · simp [isCollapsed, hws] at h
    · rw [List.dropWhile_cons, if_neg hws]

lemma isCollapsed_dropWhile (l : List Char) :
    isCollapsed false l = true →
    isCollapsed false (l.dropWhile Char.isWhitespace) = true := by
  cases l with
  | nil => intro _; rfl
  | cons c cs =>
    intro h
    by_cases hws : c.isWhitespace = true
    · simp only [isCollapsed, hws, if_true, Bool.and_eq_true] at h
      rw [List.dropWhile_cons, if_pos hws, dropWhile_self_of_true cs h.2]
      exact isCollapsed_true_imp cs h.2
    · rwa [List.dropWhile_cons, if_neg hws]

lemma dropWhile_suffix_exists (p : Char → Bool) (l : List Char) :
    ∃ t, t ++ l.dropWhile p = l := by
  induction l with
  | nil => exact ⟨[], rfl⟩
  | cons c cs ih =>
    by_cases h : p c = true
    · rcases ih with ⟨t, ht⟩
      exact ⟨c :: t, by rw [List.dropWhile_cons, if_pos h, List.cons_append, ht]⟩
    · exact ⟨[], by rw [List.dropWhile_cons, if_neg h, List.nil_append]⟩

lemma trimL_prefix_exists (l : List Char) :
    ∃ t, trimL l ++ t = l.dropWhile Char.isWhitespace := by
  rcases dropWhile_suffix_exists Char.isWhitespace
    (l.dropWhile Char.isWhitespace).reverse with ⟨t, ht⟩
  refine ⟨t.reverse, ?_⟩
  unfold trimL
  have := congrArg List.reverse ht
  simpa using this

lemma isCollapsed_trimL (l : List Char) :
    isCollapsed false l = true → isCollapsed false (trimL l) = true := by
  intro h
  rcases trimL_prefix_exists l with ⟨t, ht⟩
  exact isCollapsed_append_left (trimL l) false t
    (ht ▸ isCollapsed_dropWhile l h)

lemma dropWhile_dropWhile (p : Char → Bool) (l : List Char) :
    (l.dropWhile p).dropWhile p = l.dropWhile p := by
  induction l with
  | nil => rfl
  | cons c cs ih =>
    by_cases h : p c = true
    · rw [List.dropWhile_cons, if_pos h, ih]
    · rw [List.dropWhile_cons, if_neg h, List.dropWhile_cons, if_neg h]

lemma head_false_of_dropWhile_self (p : Char → Bool) (c : Char) (cs : List Char) :
    (c :: cs).dropWhile p = c :: cs → p c = false := by
  intro h
  by_cases hp : p c = true
  · rw [List.dropWhile_cons, if_pos hp] at h
    have h1 : (cs.dropWhile p).length ≤ cs.length := length_dropWhile_le p cs
    have h2 := congrArg List.length h
    simp only [List.length_cons] at h2
    omega
  · simpa using hp

lemma prefix_dropWhile_self (p : Char → Bool) (l pre t : List Char) :
    l.dropWhile p = l → pre ++ t = l → pre.dropWhile p = pre := by
  intro hl hpre
  cases pre with
  | nil => rfl
  | cons c cs =>
    have hl2 : (c :: (cs ++ t)).dropWhile p = c :: (cs ++ t) := by
      rw [List.cons_append] at hpre
      rw [hpre, hl]
    have hc : p c = false := head_false_of_dropWhile_self p c (cs ++ t) hl2
    rw [List.dropWhile_cons, if_neg (by simp [hc])]

lemma trimL_trimL (l : List Char) : trimL (trimL l) = trimL l := by
  have hA : (l.dropWhile Char.isWhitespace).dropWhile Char.isWhitespace =
      l.dropWhile Char.isWhitespace := dropWhile_dropWhile _ l
  rcases trimL_prefix_exists l with ⟨t, ht⟩
  have hfront : (trimL l).dropWhile Char.isWhitespace = trimL l :=
    prefix_dropWhile_self Char.isWhitespace _ (trimL l) t hA ht
  have hback : (trimL l).reverse.dropWhile Char.isWhitespace = (trimL l).reverse := by
    unfold trimL
    rw [List.reverse_reverse]
    exact dropWhile_dropWhile _ _
  show (((trimL l).dropWhile Char.isWhitespace).reverse.dropWhile
      Char.isWhitespace).reverse = trimL l
  rw [hfront, hback, List.reverse_reverse]

lemma cleanChars_of_kept (m : List Char) :
    (∀ c ∈ m, keepChar c = true) → cleanChars m = trimL (collapseWS m) := by
  intro h
  unfold cleanChars
  rw [List.filter_eq_self.mpr]
  intro c hc
  rcases mem_collapseAux m false c hc with h1 | h1
  · rw [h1]; decide
  · exact h c h1

lemma kept_cleanChars (l : List Char) : ∀ c ∈ cleanChars l, keepChar c = true := by
  intro c hc
  unfold cleanChars at hc
  exact List.of_mem_filter (mem_trimL_sub _ c hc)

lemma cleanChars_idem2 (l : List Char) :
    cleanChars (cleanChars (cleanChars l)) = cleanChars (cleanChars l) := by
  set y := cleanChars l with hy
  have hky : ∀ c ∈ y, keepChar c = true := kept_cleanChars l
  have step1 : cleanChars y = trimL (collapseWS y) := cleanChars_of_kept y hky
  set z := trimL (collapseWS y) with hz
  have hkz : ∀ c ∈ z, keepChar c = true := by
    intro c hc
    rcases mem_collapseAux y false c (mem_trimL_sub _ c hc) with h1 | h1
    · rw [h1]; decide
    · exact hky c h1
  have hcz : isCollapsed false z = true :=
    isCollapsed_trimL _ (isCollapsed_collapseAux y false)
  have hfix : collapseWS z = z := collapseAux_self_of z false hcz
  have htz : trimL z = z := by
    rw [hz]
    exact trimL_trimL (collapseWS y)
  have step2 : cleanChars z = z := by
    rw [cleanChars_of_kept z hkz, hfix, htz]
  rw [step1, step2]

lemma clean_text_mk (s : String) : clean_text s = String.mk (cleanChars s.data) := by
  unfold clean_text
  by_cases h : s = ""
  · subst h; rfl
  · rw [if_neg h]

/-- C8 (amended): `clean_text` is not idempotent (see the counterexample:
deleting characters can merge two whitespace runs), but a second
application reaches a fixpoint — applying it three times equals applying
it twice, for every string. -/
theorem C8_clean_text_twice_fixpoint (s : String) :
    clean_text (clean_text (clean_text s)) = clean_text (clean_text s) := by
  rw [clean_text_mk (clean_text (clean_text s)), clean_text_mk (clean_text s),
    clean_text_mk s]
  show String.mk (cleanChars (cleanChars (cleanChars s.data))) =
    String.mk (cleanChars (cleanChars s.data))
  rw [cleanChars_idem2]

end CourtFetcher
